import Mathlib

/-!
Verification of the sampling and verification pipeline of the avail
data-availability light client (src/rpc.rs, src/proof.rs, src/types.rs).

The embedding is shallow: pure Rust functions become Lean functions on
Nat / ℚ / List; machine integer truncation is modelled with explicit
mod; Rust code that can panic is modelled with Option (none = panic);
the random number generator and the external cryptographic verification
primitive are parameters of the embedded functions.
-/

/-- Modelled from the spec: a cell position in the extended data matrix.
The type kate_recovery::matrix::Position comes from an external crate;
spec section 3 describes it as a (row, col) pair with
row < dimensions.extended_rows and col < dimensions.cols. -/
structure Position where
  row : Nat
  col : Nat
deriving DecidableEq

/-- Modelled from the spec: matrix dimensions of a block.
The type kate_recovery::matrix::Dimensions comes from an external crate;
spec sections 3 and 4.2 describe the extended matrix as having
2 x rows rows and cols columns. -/
structure Dimensions where
  rows : Nat
  cols : Nat
deriving DecidableEq

/-- Modelled from the spec: row count of the extended (erasure coded) matrix,
2 x the original row count (spec section 3). -/
def Dimensions.extended_rows (d : Dimensions) : Nat := 2 * d.rows

/-- Modelled from the spec: total cell count of the extended matrix,
extended_rows * cols (spec section 4.2). -/
def Dimensions.extended_size (d : Dimensions) : Nat := d.extended_rows * d.cols

/-- The sampling loop of generate_random_cells (src/rpc.rs lines 66-72):
while (indices.len() as u16) < count as u16, draw a random position and
insert it into the set. The u16 casts of the source are modelled as
mod 65536. The random number generator is modelled as a stream of draws
indexed by the draw number; fuel bounds the number of iterations and
none models running out of fuel before the loop exits. -/
def generate_random_cells_loop (stream : Nat → Position) (count : Nat) :
    Nat → Nat → Finset Position → Option (Finset Position)
  | 0, _, _ => none
  | fuel + 1, i, indices =>
    if indices.card % 65536 < count % 65536 then
      generate_random_cells_loop stream count fuel (i + 1) (insert (stream i) indices)
    else
      some indices

/-- generate_random_cells (src/rpc.rs lines 58-75): count is max_cells when
max_cells < cell_count and cell_count otherwise, then the sampling loop runs
starting from the empty set. The returned Vec has set semantics (it is
collected from a HashSet with no ordering guarantee), so the result is a
Finset. -/
def generate_random_cells (dimensions : Dimensions) (stream : Nat → Position)
    (fuel : Nat) (cell_count : Nat) : Option (Finset Position) :=
  let max_cells := dimensions.extended_size
  let count := if max_cells < cell_count then max_cells else cell_count
  generate_random_cells_loop stream count fuel 0 ∅

/-- CELL_SIZE (src/types.rs line 61). -/
def CELL_SIZE : Nat := 32

/-- PROOF_SIZE (src/types.rs line 62). -/
def PROOF_SIZE : Nat := 48

/-- CELL_WITH_PROOF_SIZE (src/types.rs line 63). -/
def CELL_WITH_PROOF_SIZE : Nat := CELL_SIZE + PROOF_SIZE

/-- A cell record (kate_recovery data::Cell, external crate): a position plus
the 80 content bytes (32 data bytes followed by the 48 proof bytes),
spec section 3. Bytes are modelled as Nat. -/
structure Cell where
  position : Position
  content : List Nat
deriving DecidableEq

/-- Fuel-indexed worker for chunks_exact. -/
def chunksExactGo (n : Nat) : Nat → List Nat → List (List Nat)
  | 0, _ => []
  | fuel + 1, l =>
    if n ≤ l.length then l.take n :: chunksExactGo n fuel (l.drop n) else []

/-- Rust slice::chunks_exact as used in src/rpc.rs line 108: the successive
complete n element chunks of l, dropping any incomplete remainder. -/
def chunks_exact (n : Nat) (l : List Nat) : List (List Nat) :=
  chunksExactGo n l.length l

/-- The decode step of get_kate_proof (src/rpc.rs lines 93-118), with the RPC
transport abstracted away: the raw response byte vector is a parameter.
The response is split into exact 80 byte chunks and the chunks are zipped
with the requested positions in order (zip stops at the shorter list). -/
def get_kate_proof (positions : List Position) (response : List Nat) : List Cell :=
  (positions.zip (chunks_exact CELL_WITH_PROOF_SIZE response)).map
    (fun pc => { position := pc.1, content := pc.2 })

/-- The raw confidence formula of cell_count_for_confidence
(src/rpc.rs lines 221, 223 and 230): ceil(-log2(1 - confidence/100)).
The f64 arithmetic of the source is modelled exactly over the rationals:
ceil(-log2 x) = ceil(log2 (x⁻¹)) = Int.clog 2 (x⁻¹), and the cast of the
resulting nonnegative value with `as u32` is modelled by Int.toNat. -/
def cell_count_raw (confidence : ℚ) : Nat :=
  (Int.clog 2 (1 - confidence / 100)⁻¹).toNat

/-- cell_count_for_confidence (src/rpc.rs lines 213-233): outside [50, 100)
the default confidence 99 is used; a computed count of 0 or above 10 is
replaced by the count for confidence 99. -/
def cell_count_for_confidence (confidence : ℚ) : Nat :=
  let count :=
    if ¬(50 ≤ confidence ∧ confidence < 100) then cell_count_raw 99
    else cell_count_raw confidence
  if count = 0 ∨ 10 < count then cell_count_raw 99 else count

/-- shuffle_full_nodes (src/rpc.rs lines 139-149): remove every occurrence of
the last full node, shuffle, and push the last full node to the end when the
removal shrank the list. The random shuffle is modelled as a function
parameter; theorems assume it permutes its input. -/
def shuffle_full_nodes (shuffler : List String → List String)
    (full_nodes : List String) (last_full_node : Option String) : List String :=
  let candidates := full_nodes.filter fun node => !(some node == last_full_node)
  let candidates := shuffler candidates
  match last_full_node with
  | some node =>
    if full_nodes.length ≠ candidates.length then candidates ++ [node] else candidates
  | none => candidates

/-- Version (src/rpc.rs lines 151-155). -/
structure Version where
  version : String
  spec_version : Nat
  spec_name : String
deriving DecidableEq

/-- Rust str::starts_with: the argument is a prefix of the receiver,
modelled on the character lists of the strings. -/
def starts_with (s p : String) : Bool := p.data.isPrefixOf s.data

/-- Version::matches (src/rpc.rs lines 157-163). -/
def Version.matches (self other : Version) : Bool :=
  (starts_with self.version other.version || starts_with other.version self.version)
    && self.spec_name == other.spec_name && self.spec_version == other.spec_version

/-- The 48 byte commitment slice commitment[row * 48 .. (row + 1) * 48] taken
in src/proof.rs line 77; none models the panic of the Rust range indexing
when the end of the range exceeds the buffer length. -/
def commitment_slice (commitment : List Nat) (row : Nat) : Option (List Nat) :=
  if 48 * (row + 1) ≤ commitment.length then
    some ((commitment.drop (48 * row)).take 48)
  else none

/-- kc_verify_proof_wrapper (src/proof.rs lines 9-48). The external primitive
kate_proof::kc_verify_proof, together with the public parameters derived from
the column count, is modelled by the oracle kc_verify taking
(col, proof, commitment, total_rows, total_cols); the wrapper returns true on
Ok and false on Err, which the oracle folds into its boolean result. -/
def kc_verify_proof_wrapper (kc_verify : Nat → List Nat → List Nat → Nat → Nat → Bool)
    (block_num row col total_rows total_cols : Nat)
    (proof commitment : List Nat) : Bool :=
  kc_verify col proof commitment total_rows total_cols

/-- The per cell verification results of verify_proof (src/proof.rs
lines 63-82) in cell list order: one boolean per cell, none as soon as the
commitment slice of some cell is out of bounds (that worker panics, delivers
no result, and the collecting loop never completes). The block number is kept
because the source passes it to every worker (it is only logged there). -/
def verify_results (kc_verify : Nat → List Nat → List Nat → Nat → Nat → Bool)
    (block_num total_rows total_cols : Nat) (commitment : List Nat) :
    List Cell → Option (List Bool)
  | [] => some []
  | cell :: rest =>
    match commitment_slice commitment cell.position.row with
    | none => none
    | some slice =>
      (verify_results kc_verify block_num total_rows total_cols commitment rest).map
        (fun results =>
          kc_verify_proof_wrapper kc_verify block_num cell.position.row cell.position.col
            total_rows total_cols cell.content slice :: results)

/-- verify_proof (src/proof.rs lines 50-85): one verification job per cell,
all results collected, the true results counted. Counting is order
independent, so the parallel fan out / fan in of the source is modelled by
the sequential list of per cell results. -/
def verify_proof (kc_verify : Nat → List Nat → List Nat → Nat → Nat → Bool)
    (block_num total_rows total_cols : Nat) (cells : List Cell)
    (commitment : List Nat) : Option Nat :=
  (verify_results kc_verify block_num total_rows total_cols commitment cells).map
    (fun results => results.count true)

/-! ## Theorems -/

theorem generate_random_cells_loop_spec (stream : Nat → Position) (count : Nat)
    (inb : Position → Prop) (hstream : ∀ i, inb (stream i)) :
    ∀ fuel i indices, indices.card ≤ count % 65536 → (∀ p ∈ indices, inb p) →
      ∀ res, generate_random_cells_loop stream count fuel i indices = some res →
        res.card = count % 65536 ∧ ∀ p ∈ res, inb p := by
  intro fuel
  induction fuel with
  | zero =>
    intro i indices _ _ res h
    simp [generate_random_cells_loop] at h
  | succ fuel ih =>
    intro i indices hcard hinb res h
    have hlt : indices.card < 65536 :=
      lt_of_le_of_lt hcard (Nat.mod_lt _ (by omega))
    have hmod : indices.card % 65536 = indices.card := Nat.mod_eq_of_lt hlt
    rw [generate_random_cells_loop] at h
    by_cases hc : indices.card % 65536 < count % 65536
    · rw [if_pos hc] at h
      refine ih (i + 1) _ ?_ ?_ res h
      · have h1 : (insert (stream i) indices).card ≤ indices.card + 1 :=
          Finset.card_insert_le _ _
        omega
      · intro p hp
        rcases Finset.mem_insert.1 hp with h1 | h2
        · subst h1; exact hstream i
        · exact hinb p h2
    · rw [if_neg hc] at h
      have hres : indices = res := by injection h
      subst hres
      exact ⟨by omega, hinb⟩

/-- C1 (amended): for every dimensions value, every in-range random stream and
every requested count, when the sampling loop terminates within its fuel,
generate_random_cells returns exactly min(cell_count, extended_rows * cols)
mod 65536 pairwise distinct positions (mod 65536 because the loop condition
of src/rpc.rs line 68 compares both counters truncated with `as u16`), each
with row < extended_rows and col < cols. -/
theorem generate_random_cells_spec (dimensions : Dimensions) (stream : Nat → Position)
    (fuel cell_count : Nat)
    (hstream : ∀ i, (stream i).row < dimensions.extended_rows ∧
      (stream i).col < dimensions.cols)
    (res : Finset Position)
    (h : generate_random_cells dimensions stream fuel cell_count = some res) :
    res.card = min cell_count dimensions.extended_size % 65536 ∧
      ∀ p ∈ res, p.row < dimensions.extended_rows ∧ p.col < dimensions.cols := by
  have hmin : (if dimensions.extended_size < cell_count then dimensions.extended_size
      else cell_count) = min cell_count dimensions.extended_size := by
    rcases lt_or_ge dimensions.extended_size cell_count with hlt | hge
    · rw [if_pos hlt, min_eq_right (le_of_lt hlt)]
    · rw [if_neg (not_lt.2 hge), min_eq_left hge]
  have hspec := generate_random_cells_loop_spec stream
    (if dimensions.extended_size < cell_count then dimensions.extended_size else cell_count)
    (fun p => p.row < dimensions.extended_rows ∧ p.col < dimensions.cols) hstream
    fuel 0 ∅ (by simp) (by simp) res h
  rw [hmin] at hspec
  exact hspec

/-- C1 counterexample: for dimensions 128 x 256 the extended matrix has
exactly 65536 cells; requesting 65536 cells with an in-range random stream
makes the truncated loop condition 0 < 0 fail immediately, so the function
returns the empty set, not min(65536, extended_size) = 65536 positions. -/
theorem generate_random_cells_not_min_count :
    generate_random_cells ⟨128, 256⟩ (fun _ => ⟨0, 0⟩) 1 65536 = some ∅ ∧
    min 65536 (Dimensions.extended_size ⟨128, 256⟩) = 65536 ∧
    (0 : Nat) < Dimensions.extended_rows ⟨128, 256⟩ ∧
    (0 : Nat) < Dimensions.cols ⟨128, 256⟩ ∧
    (∅ : Finset Position).card = 0 := by
  refine ⟨rfl, by decide, by decide, by decide, rfl⟩

/-- C1 witness: concrete run of the amended theorem. For 2 x 4 extended
dimensions, requested count 3 and the stream walking the first matrix row,
the sample has exactly min(3, 8) mod 65536 = 3 positions. -/
theorem generate_random_cells_spec_witness :
    ({⟨0, 2⟩, ⟨0, 1⟩, ⟨0, 0⟩} : Finset Position).card =
      min 3 (Dimensions.extended_size ⟨1, 4⟩) % 65536 :=
  (generate_random_cells_spec ⟨1, 4⟩ (fun i => ⟨0, i % 4⟩) 10 3
    (fun i => ⟨Nat.succ_pos 1, Nat.mod_lt i (Nat.succ_pos 3)⟩) _ (by decide)).1

theorem chunksExactGo_congr (n : Nat) (hn : 0 < n) :
    ∀ fuel₁ fuel₂ (l : List Nat), l.length ≤ fuel₁ → l.length ≤ fuel₂ →
      chunksExactGo n fuel₁ l = chunksExactGo n fuel₂ l := by
  intro fuel₁
  induction fuel₁ with
  | zero =>
    intro fuel₂ l h1 _
    have : l = [] := List.length_eq_zero.1 (Nat.le_zero.1 h1)
    subst this
    cases fuel₂ with
    | zero => rfl
    | succ k => simp [chunksExactGo, Nat.not_le.2 hn]
  | succ fuel ih =>
    intro fuel₂ l h1 h2
    cases fuel₂ with
    | zero =>
      have : l = [] := List.length_eq_zero.1 (Nat.le_zero.1 h2)
      subst this
      simp [chunksExactGo, Nat.not_le.2 hn]
    | succ k =>
      by_cases hc : n ≤ l.length
      · have hd : (l.drop n).length ≤ fuel := by
          rw [List.length_drop]; omega
        have hd2 : (l.drop n).length ≤ k := by
          rw [List.length_drop]; omega
        simp only [chunksExactGo, if_pos hc]
        rw [ih k (l.drop n) hd hd2]
      · simp only [chunksExactGo, if_neg hc]

theorem chunks_exact_cons (n : Nat) (l : List Nat) (hn : 0 < n) (h : n ≤ l.length) :
    chunks_exact n l = l.take n :: chunks_exact n (l.drop n) := by
  obtain ⟨m, hm⟩ : ∃ m, l.length = m + 1 := ⟨l.length - 1, by omega⟩
  unfold chunks_exact
  rw [hm]
  simp only [chunksExactGo, if_pos h]
  rw [chunksExactGo_congr n hn m (l.drop n).length (l.drop n) (by rw [List.length_drop]; omega) le_rfl]

theorem chunks_exact_nil (n : Nat) (l : List Nat) (h : l.length < n) :
    chunks_exact n l = [] := by
  unfold chunks_exact
  cases hl : l.length with
  | zero => rfl
  | succ m =>
    simp only [chunksExactGo]
    rw [if_neg (by omega)]

/-- C8: when the RPC response has length exactly 80 * len(positions),
get_kate_proof returns one Cell per requested position in request order:
the i-th cell carries positions[i] and bytes [80 * i, 80 * (i + 1)) of the
response. -/
theorem get_kate_proof_exact (positions : List Position) (response : List Nat)
    (h : response.length = 80 * positions.length) :
    (get_kate_proof positions response).length = positions.length ∧
    ∀ i : Nat, (get_kate_proof positions response)[i]? =
      positions[i]?.map
        (fun p => { position := p, content := (response.drop (80 * i)).take 80 }) := by
  induction positions generalizing response with
  | nil =>
    constructor
    · simp [get_kate_proof]
    · intro i
      simp [get_kate_proof]
  | cons p ps ih =>
    have h80 : CELL_WITH_PROOF_SIZE = 80 := rfl
    have hlen : 80 ≤ response.length := by
      rw [h]; simp [List.length_cons, Nat.mul_succ]
    have hchunk : chunks_exact CELL_WITH_PROOF_SIZE response =
        response.take 80 :: chunks_exact CELL_WITH_PROOF_SIZE (response.drop 80) := by
      rw [h80]
      exact chunks_exact_cons 80 response (by omega) hlen
    have hdrop : (response.drop 80).length = 80 * ps.length := by
      rw [List.length_drop, h]
      simp [List.length_cons, Nat.mul_succ]
    have ihd := ih (response.drop 80) hdrop
    constructor
    · simp only [get_kate_proof, hchunk, List.zip_cons_cons, List.map_cons,
        List.length_cons]
      have := ihd.1
      simp only [get_kate_proof] at this
      rw [this]
    · intro i
      cases i with
      | zero =>
        simp only [get_kate_proof, hchunk, List.zip_cons_cons, List.map_cons]
        simp [List.drop_zero]
      | succ j =>
        simp only [get_kate_proof, hchunk, List.zip_cons_cons, List.map_cons,
          List.getElem?_cons_succ]
        have := ihd.2 j
        simp only [get_kate_proof] at this
        rw [this]
        have hdd : (response.drop 80).drop (80 * j) = response.drop (80 * (j + 1)) := by
          rw [List.drop_drop]
          congr 1
          ring
        rw [hdd]

/-- C8 witness: one requested position and an 80 byte response give exactly one
cell carrying that position and the full response as content. -/
theorem get_kate_proof_exact_witness :
    (get_kate_proof [⟨2, 3⟩] (List.replicate 80 7)).length = 1 ∧
    (get_kate_proof [⟨2, 3⟩] (List.replicate 80 7))[0]? =
      some { position := ⟨2, 3⟩, content := ((List.replicate 80 7).drop (80 * 0)).take 80 } := by
  have H := get_kate_proof_exact [⟨2, 3⟩] (List.replicate 80 7) (by decide)
  exact ⟨H.1, by rw [H.2 0]; rfl⟩

/-- C3: the code evaluated at the failing input. For one requested position and
an empty RPC response (0 bytes, not 80) get_kate_proof succeeds with 0 cells:
chunks_exact and zip silently truncate instead of failing with a decode error,
although BlockProofResponse::by_cell (src/types.rs line 276) asserts that the
response length must equal 80 * the cell count. -/
theorem get_kate_proof_no_length_check :
    get_kate_proof [⟨0, 0⟩] [] = [] ∧
    (get_kate_proof [⟨0, 0⟩] []).length < [(⟨0, 0⟩ : Position)].length := by
  exact ⟨rfl, by decide⟩

theorem int_clog2_eq (y : ℚ) (k : ℤ) (hy : 0 < y)
    (h1 : (2 : ℚ) ^ (k - 1) < y) (h2 : y ≤ (2 : ℚ) ^ k) : Int.clog 2 y = k := by
  have hb : 1 < 2 := by norm_num
  have hle : Int.clog 2 y ≤ k := (Int.le_zpow_iff_clog_le hb hy).1 h2
  have hlt : k - 1 < Int.clog 2 y := (Int.zpow_lt_iff_lt_clog hb hy).1 h1
  omega

theorem cell_count_raw_99 : cell_count_raw 99 = 7 := by
  unfold cell_count_raw
  have h : (1 - (99 : ℚ) / 100)⁻¹ = 100 := by norm_num
  rw [h, int_clog2_eq 100 7 (by norm_num) (by norm_num) (by norm_num)]
  rfl

theorem cell_count_raw_999 : cell_count_raw (999 / 10) = 10 := by
  unfold cell_count_raw
  have h : (1 - (999 / 10 : ℚ) / 100)⁻¹ = 1000 := by norm_num
  rw [h, int_clog2_eq 1000 10 (by norm_num) (by norm_num) (by norm_num)]
  rfl

theorem cell_count_raw_9995 : cell_count_raw (9995 / 100) = 11 := by
  unfold cell_count_raw
  have h : (1 - (9995 / 100 : ℚ) / 100)⁻¹ = 2000 := by norm_num
  rw [h, int_clog2_eq 2000 11 (by norm_num) (by norm_num) (by norm_num)]
  rfl

theorem cell_count_raw_pos (c : ℚ) (h1 : 50 ≤ c) (h2 : c < 100) :
    1 ≤ cell_count_raw c := by
  unfold cell_count_raw
  have hx : (0 : ℚ) < 1 - c / 100 := by linarith
  have hx2 : 1 - c / 100 ≤ 1 / 2 := by linarith
  have hy : (0 : ℚ) < (1 - c / 100)⁻¹ := by positivity
  have hy2 : (2 : ℚ) ≤ (1 - c / 100)⁻¹ := by
    rw [show (2 : ℚ) = (1 / 2 : ℚ)⁻¹ by norm_num]
    exact inv_anti₀ hx hx2
  have h3 : (0 : ℤ) < Int.clog 2 (1 - c / 100)⁻¹ := by
    rw [← Int.zpow_lt_iff_lt_clog (by norm_num : 1 < 2) hy]
    rw [zpow_zero]
    linarith
  omega

theorem cell_count_raw_mono (c1 c2 : ℚ) (h12 : c1 ≤ c2) (h2 : c2 < 100) :
    cell_count_raw c1 ≤ cell_count_raw c2 := by
  unfold cell_count_raw
  have hx2 : (0 : ℚ) < 1 - c2 / 100 := by linarith
  have hx1 : (0 : ℚ) < 1 - c1 / 100 := by linarith
  have hy1 : (0 : ℚ) < (1 - c1 / 100)⁻¹ := inv_pos.2 hx1
  have hle : (1 - c1 / 100)⁻¹ ≤ (1 - c2 / 100)⁻¹ := by
    apply inv_anti₀ hx2
    linarith
  have := Int.clog_mono_right (b := 2) hy1 hle
  omega

theorem cell_count_for_confidence_in_range (c : ℚ) (h1 : 50 ≤ c) (h2 : c < 100)
    (h3 : cell_count_raw c ≤ 10) : cell_count_for_confidence c = cell_count_raw c := by
  have hp : 1 ≤ cell_count_raw c := cell_count_raw_pos c h1 h2
  simp only [cell_count_for_confidence]
  rw [if_neg (not_not_intro ⟨h1, h2⟩)]
  rw [if_neg (by omega)]

theorem cell_count_for_confidence_default_eq (c : ℚ)
    (h : ¬(50 ≤ c ∧ c < 100) ∨ cell_count_raw c = 0 ∨ 10 < cell_count_raw c) :
    cell_count_for_confidence c = 7 := by
  simp only [cell_count_for_confidence]
  by_cases hr : 50 ≤ c ∧ c < 100
  · rw [if_neg (not_not_intro hr)]
    rcases h with h | h
    · exact absurd hr h
    · rw [if_pos h, cell_count_raw_99]
  · rw [if_pos hr, cell_count_raw_99]
    rw [if_neg (by norm_num)]

/-- C4 (amended): on [50, 100) the returned value always lies in [1, 10], and
cell_count_for_confidence is monotone under the extra hypothesis that the
raw formula count at the larger confidence does not exceed 10 (without it the
over 10 clamp back to 7 breaks monotonicity, see the counterexample). -/
theorem cell_count_for_confidence_mono_and_range :
    (∀ c1 c2 : ℚ, 50 ≤ c1 → c1 ≤ c2 → c2 < 100 → cell_count_raw c2 ≤ 10 →
      cell_count_for_confidence c1 ≤ cell_count_for_confidence c2) ∧
    (∀ c : ℚ, 50 ≤ c → c < 100 →
      1 ≤ cell_count_for_confidence c ∧ cell_count_for_confidence c ≤ 10) := by
  constructor
  · intro c1 c2 h1 h12 h2 hraw
    have hm : cell_count_raw c1 ≤ cell_count_raw c2 := cell_count_raw_mono c1 c2 h12 h2
    rw [cell_count_for_confidence_in_range c1 h1 (lt_of_le_of_lt h12 h2) (le_trans hm hraw)]
    rw [cell_count_for_confidence_in_range c2 (le_trans h1 h12) h2 hraw]
    exact hm
  · intro c h1 h2
    by_cases hraw : cell_count_raw c ≤ 10
    · rw [cell_count_for_confidence_in_range c h1 h2 hraw]
      exact ⟨cell_count_raw_pos c h1 h2, hraw⟩
    · rw [cell_count_for_confidence_default_eq c (Or.inr (Or.inr (by omega)))]
      omega

/-- C4 counterexample: 50 ≤ 99.9 ≤ 99.95 < 100, yet the returned count drops
from 10 at confidence 99.9 to 7 at confidence 99.95, because the raw count 11
at 99.95 is clamped back to the default 7: the function is not monotone on
[50, 100). -/
theorem cell_count_for_confidence_not_mono :
    (50 : ℚ) ≤ 999 / 10 ∧ (999 / 10 : ℚ) ≤ 9995 / 100 ∧ (9995 / 100 : ℚ) < 100 ∧
    cell_count_for_confidence (999 / 10) = 10 ∧
    cell_count_for_confidence (9995 / 100) = 7 := by
  refine ⟨by norm_num, by norm_num, by norm_num, ?_, ?_⟩
  · rw [cell_count_for_confidence_in_range (999 / 10) (by norm_num) (by norm_num)
      (le_of_eq cell_count_raw_999)]
    exact cell_count_raw_999
  · exact cell_count_for_confidence_default_eq (9995 / 100)
      (Or.inr (Or.inr (by rw [cell_count_raw_9995]; omega)))

/-- C4 witness: the amended theorem applied at confidences 50 ≤ 92 < 99 < 100
(the raw count at 99 is 7 ≤ 10). -/
theorem cell_count_for_confidence_mono_and_range_witness :
    cell_count_for_confidence 92 ≤ cell_count_for_confidence 99 ∧
    1 ≤ cell_count_for_confidence 92 ∧ cell_count_for_confidence 92 ≤ 10 :=
  ⟨cell_count_for_confidence_mono_and_range.1 92 99 (by norm_num) (by norm_num)
      (by norm_num) (by simp [cell_count_raw_99]),
    (cell_count_for_confidence_mono_and_range.2 92 (by norm_num) (by norm_num)).1,
    (cell_count_for_confidence_mono_and_range.2 92 (by norm_num) (by norm_num)).2⟩

/-- C5: for every confidence outside [50, 100), and for every confidence whose
raw formula count is 0 or above 10, cell_count_for_confidence returns the same
value as at the default confidence 99, namely ceil(-log2(0.01)) = 7. -/
theorem cell_count_for_confidence_default (c : ℚ)
    (h : ¬(50 ≤ c ∧ c < 100) ∨ cell_count_raw c = 0 ∨ 10 < cell_count_raw c) :
    cell_count_for_confidence c = cell_count_for_confidence 99 ∧
    cell_count_for_confidence 99 = 7 := by
  have h99 : cell_count_for_confidence 99 = 7 := by
    rw [cell_count_for_confidence_in_range 99 (by norm_num) (by norm_num)
      (by simp [cell_count_raw_99])]
    exact cell_count_raw_99
  exact ⟨(cell_count_for_confidence_default_eq c h).trans h99.symm, h99⟩

/-- C5 witness: the out of range confidence 40 is served with the count of the
default confidence 99. -/
theorem cell_count_for_confidence_default_witness :
    cell_count_for_confidence 40 = cell_count_for_confidence 99 ∧
    cell_count_for_confidence 99 = 7 :=
  cell_count_for_confidence_default 40 (Or.inl (by norm_num))

theorem shuffle_filter_eq (nodes : List String) (last : String) :
    (nodes.filter fun node => !(some node == some last)) =
      nodes.filter (fun node => node != last) := by
  apply List.filter_congr
  intro a _
  rfl

/-- C6: for a list of pairwise distinct endpoints containing last_used,
shuffle_full_nodes returns a list of the same length, with exactly the same
members, ending in last_used (for every shuffle that permutes its input). -/
theorem shuffle_full_nodes_with_last (shuffler : List String → List String)
    (hs : ∀ l, (shuffler l).Perm l)
    (nodes : List String) (last : String)
    (hnodup : nodes.Nodup) (hmem : last ∈ nodes) :
    (shuffle_full_nodes shuffler nodes (some last)).length = nodes.length ∧
    (∀ x, x ∈ shuffle_full_nodes shuffler nodes (some last) ↔ x ∈ nodes) ∧
    (shuffle_full_nodes shuffler nodes (some last)).getLast? = some last := by
  have hpos : 0 < nodes.length := List.length_pos.2 (List.ne_nil_of_mem hmem)
  have hlen : (nodes.filter (fun node => node != last)).length = nodes.length - 1 := by
    rw [← List.Nodup.erase_eq_filter hnodup]
    exact List.length_erase_of_mem hmem
  have hslen : (shuffler (nodes.filter fun node => !(some node == some last))).length =
      nodes.length - 1 := by
    rw [(hs _).length_eq, shuffle_filter_eq, hlen]
  have hres : shuffle_full_nodes shuffler nodes (some last) =
      shuffler (nodes.filter fun node => !(some node == some last)) ++ [last] := by
    simp only [shuffle_full_nodes]
    rw [if_pos (by omega)]
  refine ⟨?_, ?_, ?_⟩
  · rw [hres, List.length_append, hslen]
    simp
    omega
  · intro x
    rw [hres, List.mem_append]
    constructor
    · rintro (hx | hx)
      · have := (hs _).mem_iff.1 hx
        rw [shuffle_filter_eq] at this
        exact (List.mem_filter.1 this).1
      · simp at hx
        subst hx
        exact hmem
    · intro hx
      by_cases hxl : x = last
      · right; simp [hxl]
      · left
        apply (hs _).mem_iff.2
        rw [shuffle_filter_eq]
        exact List.mem_filter.2 ⟨hx, by simp [hxl]⟩
  · rw [hres]
    exact List.getLast?_concat _

/-- C6 witness: endpoints [A, B, C] with last_used B and the identity shuffle:
the output has length 3, contains A, and ends in B. -/
theorem shuffle_full_nodes_with_last_witness :
    (shuffle_full_nodes id ["A", "B", "C"] (some "B")).length = 3 ∧
    ("A" ∈ shuffle_full_nodes id ["A", "B", "C"] (some "B")) ∧
    (shuffle_full_nodes id ["A", "B", "C"] (some "B")).getLast? = some "B" := by
  have H := shuffle_full_nodes_with_last id (fun l => List.Perm.refl l)
    ["A", "B", "C"] "B" (by decide) (by decide)
  exact ⟨H.1, (H.2.1 "A").2 (by decide), H.2.2⟩

/-- C10: every endpoint in the output of shuffle_full_nodes occurs in the
input list, for every input list, every last_full_node value and every
shuffle that permutes its input: a last_used endpoint absent from the list
is never appended, so connection attempts only target configured addresses. -/
theorem shuffle_full_nodes_subset (shuffler : List String → List String)
    (hs : ∀ l, (shuffler l).Perm l)
    (nodes : List String) (last_full_node : Option String) (x : String)
    (hx : x ∈ shuffle_full_nodes shuffler nodes last_full_node) :
    x ∈ nodes := by
  have hmem_filter : ∀ y (p : String → Bool), y ∈ shuffler (nodes.filter p) → y ∈ nodes := by
    intro y p hy
    exact (List.mem_filter.1 ((hs _).mem_iff.1 hy)).1
  cases last_full_node with
  | none => exact hmem_filter x _ hx
  | some node =>
    simp only [shuffle_full_nodes] at hx
    by_cases hc : nodes.length =
        (shuffler (nodes.filter fun n => !(some n == some node))).length
    · rw [if_neg (not_not_intro hc)] at hx
      exact hmem_filter x _ hx
    · rw [if_pos hc] at hx
      rcases List.mem_append.1 hx with hx1 | hx1
      · exact hmem_filter x _ hx1
      · simp only [List.mem_singleton] at hx1
        subst hx1
        have hne : (nodes.filter fun n => !(some n == some x)).length ≠ nodes.length := by
          rw [← (hs _).length_eq]
          omega
        have hlt : (nodes.filter fun n => !(some n == some x)).length < nodes.length :=
          lt_of_le_of_ne (List.length_filter_le _ _) hne
        obtain ⟨y, hy, hpy⟩ := List.length_filter_lt_length_iff_exists.1 hlt
        have hyx : y = x := by
          simpa using hpy
        subst hyx
        exact hy

/-- C10 witness: with the identity shuffle, input [A] and no last node, A in
the output implies A in the input. -/
theorem shuffle_full_nodes_subset_witness : ("A" : String) ∈ ["A"] :=
  shuffle_full_nodes_subset id (fun l => List.Perm.refl l) ["A"] none "A" (by decide)

/-- C7: two versions match exactly when spec_name and spec_version agree and
one version string is a prefix of the other; in particular version 1.2.3 with
spec avail/5 matches expected 1.2 with avail/5 but not with spec version 6. -/
theorem Version_matches_iff :
    (∀ a b : Version, a.matches b = true ↔
      (a.spec_name = b.spec_name ∧ a.spec_version = b.spec_version ∧
        (a.version.data <+: b.version.data ∨ b.version.data <+: a.version.data))) ∧
    Version.matches ⟨"1.2.3", 5, "avail"⟩ ⟨"1.2", 5, "avail"⟩ = true ∧
    Version.matches ⟨"1.2.3", 5, "avail"⟩ ⟨"1.2", 6, "avail"⟩ = false := by
  refine ⟨?_, by decide, by decide⟩
  intro a b
  simp only [Version.matches, starts_with, Bool.and_eq_true, Bool.or_eq_true,
    List.isPrefixOf_iff_prefix, beq_iff_eq]
  constructor
  · rintro ⟨⟨hpre, hname⟩, hver⟩
    exact ⟨hname, hver, hpre.symm⟩
  · rintro ⟨hname, hver, hpre⟩
    exact ⟨⟨hpre.symm, hname⟩, hver⟩

theorem verify_results_none_iff
    (kc_verify : Nat → List Nat → List Nat → Nat → Nat → Bool)
    (block_num total_rows total_cols : Nat) (commitment : List Nat)
    (cells : List Cell) :
    verify_results kc_verify block_num total_rows total_cols commitment cells = none ↔
      ∃ c ∈ cells, commitment.length < 48 * (c.position.row + 1) := by
  induction cells with
  | nil => simp [verify_results]
  | cons cell rest ih =>
    by_cases hb : 48 * (cell.position.row + 1) ≤ commitment.length
    · have hslice : commitment_slice commitment cell.position.row =
          some ((commitment.drop (48 * cell.position.row)).take 48) := by
        rw [commitment_slice, if_pos hb]
      rw [verify_results, hslice, Option.map_eq_none', ih]
      constructor
      · rintro ⟨c, hc, hcl⟩
        exact ⟨c, List.mem_cons_of_mem cell hc, hcl⟩
      · rintro ⟨c, hc, hcl⟩
        rcases List.mem_cons.1 hc with h1 | h1
        · subst h1
          omega
        · exact ⟨c, h1, hcl⟩
    · have hslice : commitment_slice commitment cell.position.row = none := by
        rw [commitment_slice, if_neg hb]
      rw [verify_results, hslice]
      exact iff_of_true rfl ⟨cell, List.mem_cons_self cell rest, by omega⟩

theorem verify_results_some
    (kc_verify : Nat → List Nat → List Nat → Nat → Nat → Bool)
    (block_num total_rows total_cols : Nat) (commitment : List Nat)
    (cells : List Cell)
    (h : ∀ c ∈ cells, 48 * (c.position.row + 1) ≤ commitment.length) :
    verify_results kc_verify block_num total_rows total_cols commitment cells =
      some (cells.map fun c => kc_verify c.position.col c.content
        ((commitment.drop (48 * c.position.row)).take 48) total_rows total_cols) := by
  induction cells with
  | nil => rfl
  | cons cell rest ih =>
    have hslice : commitment_slice commitment cell.position.row =
        some ((commitment.drop (48 * cell.position.row)).take 48) := by
      rw [commitment_slice, if_pos (h cell (List.mem_cons_self cell rest))]
    rw [verify_results, hslice, ih (fun c hc => h c (List.mem_cons_of_mem cell hc))]
    rfl

theorem count_true_map (p : Cell → Bool) (l : List Cell) :
    (l.map p).count true = l.countP p := by
  induction l with
  | nil => rfl
  | cons x xs ih =>
    simp only [List.map_cons, List.count_cons, List.countP_cons, ih]
    cases p x <;> simp

/-- C9: the commitment slice in verify_proof has no bounds guard: the function
delivers a verified count exactly when every cell's row satisfies
48 * (row + 1) <= len(commitment); as soon as some cell violates this bound
the slice commitment[row * 48 .. (row + 1) * 48] is out of bounds and the
worker panics (modelled by none), for every verification oracle. -/
theorem verify_proof_none_iff
    (kc_verify : Nat → List Nat → List Nat → Nat → Nat → Bool)
    (block_num total_rows total_cols : Nat) (cells : List Cell)
    (commitment : List Nat) :
    verify_proof kc_verify block_num total_rows total_cols cells commitment = none ↔
      ∃ c ∈ cells, commitment.length < 48 * (c.position.row + 1) := by
  rw [verify_proof, Option.map_eq_none']
  exact verify_results_none_iff kc_verify block_num total_rows total_cols commitment cells

/-- C2 (amended): under the precondition that every cell's row has its full
48 byte commitment slice inside the buffer, verify_proof returns exactly the
number of cells whose proof the external primitive accepts against the
48 byte commitment slice of that cell's row, and that count is at most
len(cells). Without the precondition the function does not return (see the
counterexample). -/
theorem verify_proof_counts
    (kc_verify : Nat → List Nat → List Nat → Nat → Nat → Bool)
    (block_num total_rows total_cols : Nat) (cells : List Cell)
    (commitment : List Nat)
    (h : ∀ c ∈ cells, 48 * (c.position.row + 1) ≤ commitment.length) :
    verify_proof kc_verify block_num total_rows total_cols cells commitment =
      some (cells.countP fun c => kc_verify c.position.col c.content
        ((commitment.drop (48 * c.position.row)).take 48) total_rows total_cols) ∧
    (cells.countP fun c => kc_verify c.position.col c.content
        ((commitment.drop (48 * c.position.row)).take 48) total_rows total_cols) ≤
      cells.length := by
  constructor
  · rw [verify_proof,
      verify_results_some kc_verify block_num total_rows total_cols commitment cells h]
    simp [count_true_map]
  · exact List.countP_le_length _

/-- C2 counterexample: a single cell at row 0 with an empty commitment buffer
(and an oracle accepting everything): verify_proof panics instead of
returning a count, refuting the claim for arbitrary commitment buffers. -/
theorem verify_proof_no_count :
    verify_proof (fun _ _ _ _ _ => true) 7 1 1
      [{ position := ⟨0, 0⟩, content := List.replicate 80 0 }] [] = none := rfl

/-- C2 witness: one cell, a 48 byte commitment, the all accepting oracle:
the verified count is 1 = countP, and 1 <= 1 cell. -/
theorem verify_proof_counts_witness :
    verify_proof (fun _ _ _ _ _ => true) 7 1 1
      [{ position := ⟨0, 0⟩, content := List.replicate 80 2 }]
      (List.replicate 48 3) = some 1 ∧ (1 : Nat) ≤ 1 := by
  have H := verify_proof_counts (fun _ _ _ _ _ => true) 7 1 1
    [{ position := ⟨0, 0⟩, content := List.replicate 80 2 }]
    (List.replicate 48 3) (by decide)
  refine ⟨?_, le_refl 1⟩
  rw [H.1]
  rfl
